import Mathlib

/-!
Verification of the FCM (fuzzy cognitive map) simulator in `app.py`.

The development shallowly embeds the data model and the algorithms of the
program: the directed weighted graph built with
`nx.DiGraph`/`add_weighted_edges_from`, the clamped damped synchronous
propagation loop, the top-5 degree analytics, the ripple (scenario)
comparison, and the free-text edge collection.  Node names are strings,
weights and activations are rational numbers (the Python floats of the
program are modelled exactly by the rationals arising in the small
scenarios considered).
-/

namespace FCM

/-- Concept names are strings (user-entered text). -/
abbrev Node := String

/-- An influence edge: (source, target, weight), as in the `edges` list of
the program. -/
abbrev Edge := Node × Node × ℚ

/-- A directed graph: the node list (insertion order preserved, as in
`nx.DiGraph` which keeps dict insertion order) and the adjacency list,
holding at most one entry per ordered (source, target) pair. -/
structure Digraph where
  nodes : List Node
  adj : List Edge

/-- Writing one edge into the adjacency list, modelling `DiGraph.add_edge`:
if an entry for the same ordered pair is present its weight is overwritten
in place (dict update keeps position), otherwise the edge is appended. -/
def setWeight : List Edge → Edge → List Edge
  | [], e => [e]
  | p :: ps, e => if p.1 = e.1 ∧ p.2.1 = e.2.1 then e :: ps else p :: setWeight ps e

/-- Adding one weighted edge to the graph (`G.add_edge(u, v, weight=w)`). -/
def addEdge (g : Digraph) (e : Edge) : Digraph :=
  { g with adj := setWeight g.adj e }

/-- Building the graph of lines 135-137: `G = nx.DiGraph()`,
`G.add_nodes_from(node_list)`, `G.add_weighted_edges_from(edges)`; the
latter adds the triples one at a time, in list order. -/
def buildGraph (nl : List Node) (es : List Edge) : Digraph :=
  es.foldl addEdge { nodes := nl, adj := [] }

/-- Decidable test that an edge-list entry is for the ordered pair
(s, t). -/
def pairB (s t : Node) : Edge → Bool :=
  fun p => decide (p.1 = s ∧ p.2.1 = t)

/-- Weight lookup `G[s][t]['weight']` as an optional value. -/
def weightOf (g : Digraph) (s t : Node) : Option ℚ :=
  (g.adj.find? (pairB s t)).map fun p => p.2.2

/-- The weight carried by the last entry of the edge list for the ordered
pair (s, t), if any. -/
def lastWeight (es : List Edge) (s t : Node) : Option ℚ :=
  (es.reverse.find? (pairB s t)).map fun p => p.2.2

/-- Bounded linear squashing function of line 155-156:
`max(0, min(1, x))`. -/
def squash (x : ℚ) : ℚ := max 0 (min 1 x)

/-- Influence term of line 162: the sum over the predecessors `pred` of
`node` of `current_values[pred] * G[pred][node]['weight']`; predecessors
with their weights are exactly the adjacency entries whose target is
`node`. -/
def influence (g : Digraph) (v : Node → ℚ) (n : Node) : ℚ :=
  ((g.adj.filter fun p => decide (p.2.1 = n)).map fun p => v p.1 * p.2.2).sum

/-- One synchronous update round (lines 160-164): a fresh dict
`updated_values` is built for the nodes of `G` from the previous snapshot
`v`; the model keeps inputs outside the node set unchanged (the Python
dict simply has no key for them, and no claim reads such a key). -/
def stepOnce (g : Digraph) (d : ℚ) (v : Node → ℚ) : Node → ℚ :=
  fun n => if n ∈ g.nodes then squash (v n + d * influence g v n) else v n

/-- The propagation loop of lines 152-164: starting from a copy of the
initial values, apply `stepOnce` for the given number of steps. -/
def propagate (g : Digraph) (v0 : Node → ℚ) (steps : ℕ) (d : ℚ) : Node → ℚ :=
  match steps with
  | 0 => v0
  | s + 1 => propagate g (stepOnce g d v0) s d

/-- The damping constant set at line 158: `damping = 0.5`. -/
def dampingDefault : ℚ := 1/2

/-- Edge-existence test of line 253: `any(s == source and t == target for
(s, t, w) in edges)`. -/
def edgeExistsB (es : List Edge) (src tgt : Node) : Bool :=
  es.any (pairB src tgt)

/-- The modified edge list of lines 251-255: every entry for the selected
ordered pair gets the new weight (list comprehension of line 251), and if
the pair was absent and the new weight is nonzero the edge is appended. -/
def modifiedEdges (es : List Edge) (src tgt : Node) (wNew : ℚ) : List Edge :=
  let replaced := es.map fun e => if ¬(e.1 = src ∧ e.2.1 = tgt) then e else (e.1, e.2.1, wNew)
  if edgeExistsB es src tgt = false ∧ wNew ≠ 0 then replaced ++ [(src, tgt, wNew)] else replaced

/-- The modified propagation loop of lines 266-271, written out separately
from `propagate` exactly as the source repeats it: a fresh dict `new_mod`
is built from the snapshot each round. -/
def modLoop (g : Digraph) (d : ℚ) (v : Node → ℚ) : ℕ → (Node → ℚ)
  | 0 => v
  | s + 1 =>
    modLoop g d (fun n => if n ∈ g.nodes then squash (v n + d * influence g v n) else v n) s

/-- The modified run of lines 258-271: build `G_mod` from the modified
edge list, start from `mod_values = initial_values.copy()` (line 264) and
iterate the loop. -/
def modFinalValues (nl : List Node) (es : List Edge) (src tgt : Node) (wNew : ℚ)
    (v0 : Node → ℚ) (steps : ℕ) : Node → ℚ :=
  modLoop (buildGraph nl (modifiedEdges es src tgt wNew)) dampingDefault v0 steps

/-- Rounding to the nearest integer with ties to even, the rule of the
Python builtin `round`. -/
def roundHalfEven (q : ℚ) : ℤ :=
  let f := ⌊q⌋
  if q - f < 1/2 then f
  else if (1:ℚ)/2 < q - f then f + 1
  else if f % 2 = 0 then f else f + 1

/-- Rounding to 3 decimal places, modelling `round(x, 3)` of lines
282-283. -/
def roundTo3 (q : ℚ) : ℚ := (roundHalfEven (q * 1000) : ℚ) / 1000

/-- The Original column of the comparison table (line 282):
`round(original_values[n], 3)` per node. -/
def originalCol (nl : List Node) (orig : Node → ℚ) : List ℚ :=
  nl.map fun n => roundTo3 (orig n)

/-- The Modified column of the comparison table (line 283):
`round(mod_values[n], 3)` per node. -/
def modifiedCol (nl : List Node) (modv : Node → ℚ) : List ℚ :=
  nl.map fun n => roundTo3 (modv n)

/-- The Change column of line 285: the elementwise difference of the
Modified and Original columns. -/
def changeCol (nl : List Node) (orig modv : Node → ℚ) : List ℚ :=
  List.zipWith (fun a b => a - b) (modifiedCol nl modv) (originalCol nl orig)

/-- Out-degree of a node: the number of adjacency entries with this
source (`G.out_degree()`). -/
def outDegree (g : Digraph) (n : Node) : ℕ :=
  g.adj.countP fun e => decide (e.1 = n)

/-- In-degree of a node: the number of adjacency entries with this target
(`G.in_degree()`). -/
def inDegree (g : Digraph) (n : Node) : ℕ :=
  g.adj.countP fun e => decide (e.2.1 = n)

/-- The items of `dict(G.out_degree())` (line 211), in node insertion
order. -/
def outPairs (g : Digraph) : List (Node × ℕ) :=
  g.nodes.map fun n => (n, outDegree g n)

/-- The items of `dict(G.in_degree())` (line 220), in node insertion
order. -/
def inPairs (g : Digraph) : List (Node × ℕ) :=
  g.nodes.map fun n => (n, inDegree g n)

/-- The comparison used by `sorted(..., key=lambda x: x[1], reverse=True)`:
an item precedes another when its degree is at least as large. -/
def degGE (a b : Node × ℕ) : Prop := b.2 ≤ a.2

instance : DecidableRel degGE := fun a b => inferInstanceAs (Decidable (b.2 ≤ a.2))

instance : IsTotal (Node × ℕ) degGE := ⟨fun a b => (Nat.le_total a.2 b.2).symm⟩

instance : IsTrans (Node × ℕ) degGE := ⟨fun _ _ _ h1 h2 => Nat.le_trans h2 h1⟩

/-- The top-5 outbound listing of lines 211-212:
`sorted(out_degrees.items(), key=lambda x: x[1], reverse=True)[:5]`; the
Python builtin `sorted` is a stable sort, embedded as a stable insertion
sort with the descending-by-degree comparison. -/
def topOut (g : Digraph) : List (Node × ℕ) :=
  (List.insertionSort degGE (outPairs g)).take 5

/-- The top-5 inbound listing of lines 220-221. -/
def topIn (g : Digraph) : List (Node × ℕ) :=
  (List.insertionSort degGE (inPairs g)).take 5

/-- Edge collection from the weight text fields (lines 100-106): each
attempted pair carries the result of `float(val)` as an optional rational
(`none` when the text does not parse, in which case the `except` branch
just continues); a parsed weight is kept when it lies in [-1, 1] and is
nonzero. -/
def collectEdges : List (Node × Node × Option ℚ) → List Edge
  | [] => []
  | (_, _, none) :: rest => collectEdges rest
  | (s, t, some w) :: rest =>
    if -1 ≤ w ∧ w ≤ 1 ∧ w ≠ 0 then (s, t, w) :: collectEdges rest else collectEdges rest

/-- Nodes of the end-to-end scenario. -/
def nodesABC : List Node := ["A", "B", "C"]

/-- Edges of the end-to-end scenario: A influences B with weight 0.5 and B
influences C with weight -0.5. -/
def edgesABC : List Edge := [("A", "B", 1/2), ("B", "C", -1/2)]

/-- Initial activations of the end-to-end scenario: A and C start at 1.0,
B starts at 0.0. -/
def v0ABC : Node → ℚ := fun n => if n = "B" then 0 else 1

/-- Two-node cycle for the synchronous-update check: A and B influence
each other with weight 0.5. -/
def cycleAB : Digraph := buildGraph ["A", "B"] [("A", "B", 1/2), ("B", "A", 1/2)]

/-- Initial activations for the cycle: A = 1.0, B = 0.0. -/
def v0AB : Node → ℚ := fun n => if n = "A" then 1 else 0

/-- The original final activation vector of the end-to-end scenario,
as `current_values` after the loop (line 263 copies it). -/
def origABC : Node → ℚ :=
  propagate (buildGraph nodesABC edgesABC) v0ABC 2 dampingDefault

/-- The modified final activation vector of the end-to-end scenario when
the ripple selection sets the weight of the existing edge (B, C) to 0. -/
def modvBC0 : Node → ℚ :=
  modFinalValues nodesABC edgesABC "B" "C" 0 v0ABC 2

/-- Small concrete graph used to instantiate the range invariant. -/
def graphW : Digraph := { nodes := ["A", "B"], adj := [("A", "B", 1/2)] }

/-- An initial activation mapping with values far outside [0, 1]. -/
def vBig : Node → ℚ := fun _ => 5

/-- Node list of the identity-ripple instance. -/
def nlW : List Node := ["A", "B"]

/-- Edge list of the identity-ripple instance. -/
def esW : List Edge := [("A", "B", 1/2)]

/-- Initial activations of the identity-ripple instance. -/
def v0W : Node → ℚ := fun n => if n = "A" then 1 else 0

/-- Claim C1: on the graph with nodes [A, B, C], edges [(A,B,0.5),
(B,C,-0.5)], initial activations A = 1, B = 0, C = 1, two steps and
damping 0.5, the propagation loop returns A = 1.0, B = 0.5 and
C = 0.9375. -/
theorem c1_end_to_end :
    propagate (buildGraph nodesABC edgesABC) v0ABC 2 dampingDefault "A" = 1
    ∧ propagate (buildGraph nodesABC edgesABC) v0ABC 2 dampingDefault "B" = 1/2
    ∧ propagate (buildGraph nodesABC edgesABC) v0ABC 2 dampingDefault "C" = 15/16 := by
  simp [propagate, stepOnce, influence, squash, buildGraph, addEdge, setWeight,
    dampingDefault, nodesABC, edgesABC, v0ABC]
  norm_num [min_def, max_def]

/-- Claim C2: the propagation loop reads the damping factor from a
parameter whose value in the program is 0.5, and on the 2-node cycle
A→B (0.5), B→A (0.5) with A = 1, B = 0, one step and damping 1.0 it
yields A = 1.0 and B = 0.5: B's update sees A's pre-step value, because
each round is computed from the previous snapshot. -/
theorem c2_damping_synchronous :
    dampingDefault = 1/2
    ∧ propagate cycleAB v0AB 1 1 "A" = 1
    ∧ propagate cycleAB v0AB 1 1 "B" = 1/2 := by
  refine ⟨rfl, ?_, ?_⟩ <;>
  · simp [propagate, stepOnce, influence, squash, buildGraph, addEdge, setWeight,
      cycleAB, v0AB]
    try norm_num [min_def, max_def]

/-- Claim C6: running the propagation loop with step count 0 returns the
initial activation vector unchanged, for every graph, initial vector and
damping. -/
theorem c6_zero_steps (g : Digraph) (v0 : Node → ℚ) (d : ℚ) :
    propagate g v0 0 d = v0 := rfl

/-- Helper: the pair test holds exactly on entries with that source and
target. -/
lemma pairB_eq_true (s t : Node) (p : Edge) :
    pairB s t p = true ↔ p.1 = s ∧ p.2.1 = t := by
  simp [pairB]

/-- Helper: writing an edge makes its own pair found with exactly that
entry. -/
lemma find_setWeight_self (l : List Edge) (e : Edge) :
    (setWeight l e).find? (pairB e.1 e.2.1) = some e := by
  have heB : pairB e.1 e.2.1 e = true := (pairB_eq_true _ _ _).mpr ⟨rfl, rfl⟩
  induction l with
  | nil =>
    simp only [setWeight]
    rw [List.find?_cons_of_pos _ heB]
  | cons p ps ih =>
    by_cases hp : p.1 = e.1 ∧ p.2.1 = e.2.1
    · simp only [setWeight, if_pos hp]
      rw [List.find?_cons_of_pos _ heB]
    · simp only [setWeight, if_neg hp]
      rw [List.find?_cons_of_neg _ (by simpa [pairB_eq_true] using hp)]
      exact ih

/-- Helper: writing an edge leaves lookups of every other pair
unchanged. -/
lemma find_setWeight_other (l : List Edge) (e : Edge) (s t : Node)
    (h : ¬(s = e.1 ∧ t = e.2.1)) :
    (setWeight l e).find? (pairB s t) = l.find? (pairB s t) := by
  have heB : ¬ pairB s t e = true := by
    rw [pairB_eq_true]
    rintro ⟨h1, h2⟩
    exact h ⟨h1.symm, h2.symm⟩
  induction l with
  | nil =>
    simp only [setWeight]
    rw [List.find?_cons_of_neg _ heB, List.find?_nil]
  | cons p ps ih =>
    by_cases hp : p.1 = e.1 ∧ p.2.1 = e.2.1
    · have hpB : ¬ pairB s t p = true := by
        rw [pairB_eq_true]
        rintro ⟨h1, h2⟩
        exact h ⟨hp.1 ▸ h1.symm, hp.2 ▸ h2.symm⟩
      simp only [setWeight, if_pos hp]
      rw [List.find?_cons_of_neg _ heB, List.find?_cons_of_neg _ hpB]
    · simp only [setWeight, if_neg hp]
      by_cases hps : pairB s t p = true
      · rw [List.find?_cons_of_pos _ hps, List.find?_cons_of_pos _ hps]
      · rw [List.find?_cons_of_neg _ hps, List.find?_cons_of_neg _ hps]
        exact ih

/-- Helper: writing an edge does not change how many entries other pairs
have. -/
lemma countP_setWeight_other (l : List Edge) (e : Edge) (s t : Node)
    (h : ¬(s = e.1 ∧ t = e.2.1)) :
    (setWeight l e).countP (pairB s t) = l.countP (pairB s t) := by
  have heB : ¬ pairB s t e = true := by
    rw [pairB_eq_true]
    rintro ⟨h1, h2⟩
    exact h ⟨h1.symm, h2.symm⟩
  induction l with
  | nil =>
    simp only [setWeight]
    rw [List.countP_cons_of_neg _ _ heB]
  | cons p ps ih =>
    by_cases hp : p.1 = e.1 ∧ p.2.1 = e.2.1
    · have hpB : ¬ pairB s t p = true := by
        rw [pairB_eq_true]
        rintro ⟨h1, h2⟩
        exact h ⟨hp.1 ▸ h1.symm, hp.2 ▸ h2.symm⟩
      simp only [setWeight, if_pos hp]
      rw [List.countP_cons_of_neg _ _ heB, List.countP_cons_of_neg _ _ hpB]
    · simp only [setWeight, if_neg hp]
      rw [List.countP_cons, List.countP_cons, ih]

/-- Helper: after writing an edge, its pair has exactly one entry,
provided it had at most one before. -/
lemma countP_setWeight_self (l : List Edge) (e : Edge)
    (h : l.countP (pairB e.1 e.2.1) ≤ 1) :
    (setWeight l e).countP (pairB e.1 e.2.1) = 1 := by
  have heB : pairB e.1 e.2.1 e = true := (pairB_eq_true _ _ _).mpr ⟨rfl, rfl⟩
  induction l with
  | nil =>
    simp only [setWeight]
    rw [List.countP_cons_of_pos _ _ heB, List.countP_nil]
  | cons p ps ih =>
    by_cases hp : p.1 = e.1 ∧ p.2.1 = e.2.1
    · have hpB : pairB e.1 e.2.1 p = true := (pairB_eq_true _ _ _).mpr hp
      rw [List.countP_cons_of_pos _ _ hpB] at h
      have hps : ps.countP (pairB e.1 e.2.1) = 0 := by omega
      simp only [setWeight, if_pos hp]
      rw [List.countP_cons_of_pos _ _ heB, hps]
    · have hpB : ¬ pairB e.1 e.2.1 p = true := by simpa [pairB_eq_true] using hp
      rw [List.countP_cons_of_neg _ _ hpB] at h
      simp only [setWeight, if_neg hp]
      rw [List.countP_cons_of_neg _ _ hpB]
      exact ih h

/-- Helper: the adjacency list of a graph built by folding `addEdge` is
the fold of `setWeight` over the starting adjacency list. -/
lemma adj_foldl (es : List Edge) (g : Digraph) :
    (es.foldl addEdge g).adj = es.foldl setWeight g.adj := by
  induction es generalizing g with
  | nil => rfl
  | cons e es ih => simpa [addEdge] using ih _

/-- Helper: the node list is untouched by edge insertion. -/
lemma nodes_foldl (es : List Edge) (g : Digraph) :
    (es.foldl addEdge g).nodes = g.nodes := by
  induction es generalizing g with
  | nil => rfl
  | cons e es ih => simpa [addEdge] using ih _

/-- Helper: `find?` distributes over append through `orElse`. -/
lemma find_append (p : Edge → Bool) (l1 l2 : List Edge) :
    (l1 ++ l2).find? p = (l1.find? p).orElse fun _ => l2.find? p := by
  induction l1 with
  | nil => simp
  | cons a l1 ih =>
    by_cases h : p a = true
    · simp [List.find?_cons_of_pos _ h, Option.orElse]
    · rw [List.cons_append, List.find?_cons_of_neg _ (by simpa using h),
        List.find?_cons_of_neg _ (by simpa using h), ih]

/-- Helper: folding edge writes over a list looks up to the last matching
written entry, then to the starting adjacency list. -/
lemma find_foldl_setWeight (es : List Edge) (l : List Edge) (s t : Node) :
    (es.foldl setWeight l).find? (pairB s t) =
      (es.reverse.find? (pairB s t)).orElse fun _ => l.find? (pairB s t) := by
  induction es generalizing l with
  | nil => simp [Option.orElse]
  | cons e es ih =>
    rw [List.foldl_cons, ih, List.reverse_cons, find_append]
    cases hfind : es.reverse.find? (pairB s t) with
    | some x => simp [Option.orElse]
    | none =>
      simp only [Option.orElse, Option.none_orElse]
      by_cases hpair : s = e.1 ∧ t = e.2.1
      · obtain ⟨h1, h2⟩ := hpair
        subst h1; subst h2
        rw [find_setWeight_self]
        have heB : pairB e.1 e.2.1 e = true := (pairB_eq_true _ _ _).mpr ⟨rfl, rfl⟩
        rw [List.find?_cons_of_pos _ heB]
      · rw [find_setWeight_other _ _ _ _ hpair]
        have heB : ¬ pairB s t e = true := by
          rw [pairB_eq_true]
          rintro ⟨h1, h2⟩
          exact hpair ⟨h1.symm, h2.symm⟩
        rw [List.find?_cons_of_neg _ heB, List.find?_nil]

/-- Helper: every ordered pair has at most one adjacency entry in a built
graph. -/
lemma countP_foldl_setWeight (es : List Edge) (l : List Edge)
    (h : ∀ s t : Node, l.countP (pairB s t) ≤ 1) (s t : Node) :
    (es.foldl setWeight l).countP (pairB s t) ≤ 1 := by
  induction es generalizing l with
  | nil => exact h s t
  | cons e es ih =>
    rw [List.foldl_cons]
    refine ih _ fun a b => ?_
    by_cases hp : a = e.1 ∧ b = e.2.1
    · obtain ⟨h1, h2⟩ := hp
      subst h1; subst h2
      exact le_of_eq (countP_setWeight_self _ _ (h _ _))
    · rw [countP_setWeight_other _ _ _ _ hp]
      exact h a b

/-- Claim C5: the built graph stores at most one edge per ordered pair,
its stored weight for a pair is exactly the weight of the last edge-list
entry for that pair (so several entries are resolved last-write-wins),
and on a concrete duplicated pair the stored weight is the later entry
1/2, not the sum 3/4. -/
theorem c5_last_write_wins :
    (∀ (nl : List Node) (es : List Edge) (s t : Node),
      (buildGraph nl es).adj.countP (pairB s t) ≤ 1
      ∧ weightOf (buildGraph nl es) s t = lastWeight es s t)
    ∧ weightOf (buildGraph ["A", "B"] [("A", "B", 1/4), ("A", "B", 1/2)]) "A" "B"
        = some (1/2) := by
  constructor
  · intro nl es s t
    constructor
    · rw [buildGraph, adj_foldl]
      exact countP_foldl_setWeight es [] (by simp) s t
    · rw [weightOf, lastWeight, buildGraph, adj_foldl, find_foldl_setWeight]
      cases es.reverse.find? (pairB s t) with
      | some x => simp [Option.orElse]
      | none => simp [Option.orElse]
  · simp [weightOf, buildGraph, addEdge, setWeight, pairB]

/-- Helper: the separately written modified loop computes exactly what
the original propagation loop computes. -/
lemma modLoop_eq_propagate (g : Digraph) (d : ℚ) :
    ∀ (s : ℕ) (v : Node → ℚ), modLoop g d v s = propagate g v s d := by
  intro s
  induction s with
  | zero => intro v; rfl
  | succ s ih => intro v; exact ih (stepOnce g d v)

/-- Helper: when no entry is for the selected pair, the replacement map
of line 251 leaves the edge list unchanged. -/
lemma map_replace_of_not_exists (es : List Edge) (src tgt : Node) (wNew : ℚ)
    (h : edgeExistsB es src tgt = false) :
    (es.map fun e => if ¬(e.1 = src ∧ e.2.1 = tgt) then e else (e.1, e.2.1, wNew)) = es := by
  have hall : ∀ e ∈ es, ¬(e.1 = src ∧ e.2.1 = tgt) := by
    intro e he hc
    have : edgeExistsB es src tgt = true :=
      List.any_eq_true.mpr ⟨e, he, (pairB_eq_true _ _ _).mpr hc⟩
    rw [h] at this
    exact Bool.false_ne_true this
  calc (es.map fun e => if ¬(e.1 = src ∧ e.2.1 = tgt) then e else (e.1, e.2.1, wNew))
      = es.map id := List.map_congr_left fun e he => if_pos (hall e he)
    _ = es := List.map_id es

/-- Claim C3: the modified edge list replaces the weight of the selected
pair when an entry for it exists, is the original list with the new edge
appended when it does not exist and the new weight is nonzero, and is
exactly the original list when it does not exist and the new weight is
zero; and the modified run is the propagation of the modified graph
starting from the same initial vector v0, not from the original result. -/
theorem c3_scenario_modification (es : List Edge) (src tgt : Node) (wNew : ℚ)
    (nl : List Node) (v0 : Node → ℚ) (steps : ℕ) :
    modifiedEdges es src tgt wNew =
      (if edgeExistsB es src tgt = true then
        es.map fun e => if ¬(e.1 = src ∧ e.2.1 = tgt) then e else (e.1, e.2.1, wNew)
      else if wNew = 0 then es else es ++ [(src, tgt, wNew)])
    ∧ modFinalValues nl es src tgt wNew v0 steps
        = propagate (buildGraph nl (modifiedEdges es src tgt wNew)) v0 steps dampingDefault := by
  constructor
  · cases hex : edgeExistsB es src tgt with
    | true =>
      simp only [modifiedEdges, hex, if_pos rfl]
      simp
    | false =>
      simp only [modifiedEdges, hex, Bool.false_eq_true, if_neg Bool.false_ne_true]
      rw [map_replace_of_not_exists es src tgt wNew hex]
      by_cases hw : wNew = 0
      · simp [hw]
      · simp [hw]
  · exact modLoop_eq_propagate _ _ steps v0

/-- Helper: the Change column is the per-node difference of the rounded
final values. -/
lemma changeCol_eq_map (nl : List Node) (orig modv : Node → ℚ) :
    changeCol nl orig modv = nl.map fun n => roundTo3 (modv n) - roundTo3 (orig n) := by
  unfold changeCol modifiedCol originalCol
  induction nl with
  | nil => rfl
  | cons n ns ih => simp [ih]

/-- Helper: rounding an integer-valued rational changes nothing. -/
lemma roundTo3_one : roundTo3 1 = 1 := by
  have hf : ⌊(1:ℚ) * 1000⌋ = 1000 := by norm_num
  rw [roundTo3, roundHalfEven, hf]
  norm_num

/-- Helper: rounding one half at 3 decimals is exact. -/
lemma roundTo3_half : roundTo3 (1/2) = 1/2 := by
  have hf : ⌊(1:ℚ)/2 * 1000⌋ = 500 := by norm_num
  rw [roundTo3, roundHalfEven, hf]
  norm_num

/-- Helper: 0.9375 rounds to 0.938 at 3 decimals (tie broken to the even
digit, as the Python builtin `round` does). -/
lemma roundTo3_fifteen16 : roundTo3 (15/16) = 469/500 := by
  have hf : ⌊(15:ℚ)/16 * 1000⌋ = 937 := by
    rw [Int.floor_eq_iff]
    constructor <;> norm_num
  rw [roundTo3, roundHalfEven, hf]
  norm_num

/-- Helper: the original run of the end-to-end scenario ends with C at
15/16. -/
lemma origABC_C_eval : origABC "C" = 15/16 := by
  simp [origABC, propagate, stepOnce, influence, squash, buildGraph, addEdge, setWeight,
    dampingDefault, nodesABC, edgesABC, v0ABC]
  norm_num [min_def, max_def]

/-- Helper: setting the weight of the existing edge (B, C) to 0 leaves C
at 1 after the modified run. -/
lemma modvBC0_C_eval : modvBC0 "C" = 1 := by
  simp [modvBC0, modFinalValues, modLoop, modifiedEdges, edgeExistsB, pairB, influence,
    squash, buildGraph, addEdge, setWeight, dampingDefault, nodesABC, edgesABC, v0ABC]
  try norm_num [min_def, max_def]

/-- Claim C4 counterexample: in the end-to-end scenario with the ripple
selection (B, C) set to weight 0, the Change value recorded for node C is
0.062 (the difference of the rounded columns), while the difference of
the raw final activations is 0.0625; so Change does not equal the raw
difference. -/
theorem c4_rounding_cex :
    (changeCol nodesABC origABC modvBC0)[2]? = some (31/500)
    ∧ modvBC0 "C" - origABC "C" = 1/16
    ∧ ((31:ℚ)/500) ≠ 1/16 := by
  refine ⟨?_, ?_, by norm_num⟩
  · rw [changeCol_eq_map]
    simp only [nodesABC, List.map_cons, List.map_nil]
    rw [show ((2:ℕ)) = 2 from rfl]
    simp only [List.getElem?_cons_succ, List.getElem?_cons_zero]
    rw [modvBC0_C_eval, origABC_C_eval, roundTo3_one, roundTo3_fifteen16]
    norm_num
  · rw [modvBC0_C_eval, origABC_C_eval]
    norm_num

/-- Claim C4 (amended): for every node the Change value of the comparison
record equals the difference of the values rounded to 3 decimal places,
round(modified, 3) minus round(original, 3), not the difference of the
raw final activations. -/
theorem c4_change_amended (nl : List Node) (orig modv : Node → ℚ) :
    changeCol nl orig modv = nl.map fun n => roundTo3 (modv n) - roundTo3 (orig n) :=
  changeCol_eq_map nl orig modv

/-- Helper: inserting an item whose degree is the filtered value puts it
in front of the other items with that degree: every item passed over has
a strictly larger degree. -/
lemma filter_orderedInsert_isKey (d : ℕ) (a : Node × ℕ) (l : List (Node × ℕ))
    (ha : a.2 = d) :
    (List.orderedInsert degGE a l).filter (fun p => decide (p.2 = d)) =
      a :: l.filter (fun p => decide (p.2 = d)) := by
  induction l with
  | nil => simp [List.orderedInsert, ha]
  | cons b bs ih =>
    simp only [List.orderedInsert]
    by_cases h : degGE a b
    · rw [if_pos h]
      simp [List.filter_cons, ha]
    · rw [if_neg h]
      have hb : ¬ b.2 = d := by
        simp only [degGE, not_le] at h
        omega
      simp [List.filter_cons, hb, ih]

/-- Helper: inserting an item with a different degree does not disturb
the subsequence of items with the filtered degree. -/
lemma filter_orderedInsert_notKey (d : ℕ) (a : Node × ℕ) (l : List (Node × ℕ))
    (ha : ¬ a.2 = d) :
    (List.orderedInsert degGE a l).filter (fun p => decide (p.2 = d)) =
      l.filter (fun p => decide (p.2 = d)) := by
  induction l with
  | nil => simp [List.orderedInsert, ha]
  | cons b bs ih =>
    simp only [List.orderedInsert]
    by_cases h : degGE a b
    · rw [if_pos h]
      simp [List.filter_cons, ha]
    · rw [if_neg h]
      simp [List.filter_cons, ih]

/-- Helper: the stable descending sort keeps the items of each fixed
degree in their original relative order. -/
lemma filter_insertionSort_stable (d : ℕ) (l : List (Node × ℕ)) :
    (List.insertionSort degGE l).filter (fun p => decide (p.2 = d)) =
      l.filter (fun p => decide (p.2 = d)) := by
  induction l with
  | nil => rfl
  | cons a l ih =>
    simp only [List.insertionSort]
    by_cases h : a.2 = d
    · rw [filter_orderedInsert_isKey d a _ h, ih]
      simp [List.filter_cons, h]
    · rw [filter_orderedInsert_notKey d a _ h, ih]
      simp [List.filter_cons, h]

/-- Claim C7: both top-5 listings truncate to 5 entries a permutation of
the degree pairs (taken in node insertion order) that is sorted so that
degrees descend, and for every degree value the items carrying it stay in
their node-insertion relative order (stable tie-break). -/
theorem c7_top5_ranking (g : Digraph) :
    topOut g = (List.insertionSort degGE (outPairs g)).take 5
    ∧ (topOut g).length ≤ 5
    ∧ List.Sorted degGE (List.insertionSort degGE (outPairs g))
    ∧ List.Perm (List.insertionSort degGE (outPairs g)) (outPairs g)
    ∧ (∀ d : ℕ, (List.insertionSort degGE (outPairs g)).filter (fun p => decide (p.2 = d))
        = (outPairs g).filter (fun p => decide (p.2 = d)))
    ∧ topIn g = (List.insertionSort degGE (inPairs g)).take 5
    ∧ (topIn g).length ≤ 5
    ∧ List.Sorted degGE (List.insertionSort degGE (inPairs g))
    ∧ List.Perm (List.insertionSort degGE (inPairs g)) (inPairs g)
    ∧ ∀ d : ℕ, (List.insertionSort degGE (inPairs g)).filter (fun p => decide (p.2 = d))
        = (inPairs g).filter (fun p => decide (p.2 = d)) :=
  ⟨rfl, List.length_take_le 5 _, List.sorted_insertionSort degGE _,
    List.perm_insertionSort degGE _, fun d => filter_insertionSort_stable d _,
    rfl, List.length_take_le 5 _, List.sorted_insertionSort degGE _,
    List.perm_insertionSort degGE _, fun d => filter_insertionSort_stable d _⟩

/-- Claim C8: a weight field whose text does not parse as a number (the
`none` entry, where `float(val)` raised and the `except` branch ran
`continue`) contributes nothing and the remaining entries are processed
exactly as if it were absent; `collectEdges` is total, so a malformed
entry never aborts the construction. -/
theorem c8_malformed_discarded (pre post : List (Node × Node × Option ℚ)) (s t : Node) :
    collectEdges (pre ++ (s, t, none) :: post) = collectEdges (pre ++ post) := by
  induction pre with
  | nil => rfl
  | cons e pre ih =>
    obtain ⟨a, b, w⟩ := e
    cases w with
    | none => simpa only [List.cons_append, collectEdges] using ih
    | some q => simp only [List.cons_append, collectEdges, List.append_eq, ih]

/-- Helper: the squashing function lands in [0, 1]. -/
lemma squash_nonneg (x : ℚ) : 0 ≤ squash x := le_max_left 0 _

/-- Helper: the squashing function never exceeds 1. -/
lemma squash_le_one (x : ℚ) : squash x ≤ 1 := max_le (by norm_num) (min_le_left 1 x)

/-- Helper: after at least one round, every node of the graph carries a
squashed value. -/
lemma propagate_succ_bounds (g : Digraph) (d : ℚ) (n : Node) (hn : n ∈ g.nodes) :
    ∀ (s : ℕ) (v : Node → ℚ),
      0 ≤ propagate g v (s + 1) d n ∧ propagate g v (s + 1) d n ≤ 1 := by
  intro s
  induction s with
  | zero =>
    intro v
    show 0 ≤ stepOnce g d v n ∧ stepOnce g d v n ≤ 1
    rw [stepOnce]
    simp only [if_pos hn]
    exact ⟨squash_nonneg _, squash_le_one _⟩
  | succ s ih => exact fun v => ih (stepOnce g d v)

/-- Claim C9: for every graph, every initial activation mapping (even with
values outside [0, 1]), every damping and every step count of at least 1,
the final activation of every node of the graph lies in [0, 1], because
the last update of each node passed through the clamping function. -/
theorem c9_clamped_range (g : Digraph) (v0 : Node → ℚ) (d : ℚ) (s : ℕ)
    (hs : 1 ≤ s) (n : Node) (hn : n ∈ g.nodes) :
    0 ≤ propagate g v0 s d n ∧ propagate g v0 s d n ≤ 1 := by
  obtain ⟨k, rfl⟩ : ∃ k, s = k + 1 := ⟨s - 1, by omega⟩
  exact propagate_succ_bounds g d n hn k v0

/-- Witness for C9: the range invariant instantiated on a concrete graph
with an initial activation of 5 on every node, one step and damping
1/2. -/
theorem c9_clamped_range_witness :
    (1:ℕ) ≤ 1 ∧ "A" ∈ graphW.nodes
    ∧ (0 ≤ propagate graphW vBig 1 dampingDefault "A"
        ∧ propagate graphW vBig 1 dampingDefault "A" ≤ 1) :=
  ⟨le_refl 1, by decide,
    c9_clamped_range graphW vBig dampingDefault 1 (le_refl 1) "A" (by decide)⟩

/-- Claim C10: when the selected pair already appears in the edge list
with weight w (every entry for the pair carrying that same weight) and
the new ripple weight equals w, the modified edge list is the original
one, the modified run equals the original run, and every Change value of
the comparison record is 0. -/
theorem c10_identity_ripple (nl : List Node) (es : List Edge) (src tgt : Node)
    (w : ℚ) (v0 : Node → ℚ) (steps : ℕ)
    (hmem : (src, tgt, w) ∈ es)
    (hall : ∀ e ∈ es, e.1 = src → e.2.1 = tgt → e.2.2 = w) :
    modifiedEdges es src tgt w = es
    ∧ modFinalValues nl es src tgt w v0 steps
        = propagate (buildGraph nl es) v0 steps dampingDefault
    ∧ ∀ x ∈ changeCol nl (propagate (buildGraph nl es) v0 steps dampingDefault)
          (modFinalValues nl es src tgt w v0 steps), x = 0 := by
  have hex : edgeExistsB es src tgt = true :=
    List.any_eq_true.mpr ⟨(src, tgt, w), hmem, (pairB_eq_true _ _ _).mpr ⟨rfl, rfl⟩⟩
  have hmod : modifiedEdges es src tgt w = es := by
    simp only [modifiedEdges, hex, Bool.true_eq_false, false_and, if_neg (not_false)]
    calc (es.map fun e => if ¬(e.1 = src ∧ e.2.1 = tgt) then e else (e.1, e.2.1, w))
        = es.map id := by
          refine List.map_congr_left fun e he => ?_
          by_cases hc : e.1 = src ∧ e.2.1 = tgt
          · rw [if_neg (not_not_intro hc)]
            have hw : e.2.2 = w := hall e he hc.1 hc.2
            show (e.1, e.2.1, w) = e
            rw [← hw]
          · rw [if_pos hc]
            rfl
      _ = es := List.map_id es
  have hrun : modFinalValues nl es src tgt w v0 steps
      = propagate (buildGraph nl es) v0 steps dampingDefault := by
    rw [modFinalValues, hmod, modLoop_eq_propagate]
  refine ⟨hmod, hrun, fun x hx => ?_⟩
  rw [hrun, changeCol_eq_map] at hx
  obtain ⟨n, _, rfl⟩ := List.mem_map.mp hx
  exact sub_self _

/-- Witness for C10: the identity ripple on the one-edge instance, with
its hypotheses checked on the concrete lists. -/
theorem c10_identity_ripple_witness :
    ("A", "B", (1:ℚ)/2) ∈ esW
    ∧ modifiedEdges esW "A" "B" (1/2) = esW
    ∧ ∀ x ∈ changeCol nlW (propagate (buildGraph nlW esW) v0W 1 dampingDefault)
          (modFinalValues nlW esW "A" "B" (1/2) v0W 1), x = 0 := by
  have hmem : ("A", "B", (1:ℚ)/2) ∈ esW := by
    simp [esW]
  have hall : ∀ e ∈ esW, e.1 = "A" → e.2.1 = "B" → e.2.2 = 1/2 := by
    intro e he _ _
    simp only [esW, List.mem_singleton] at he
    rw [he]
  obtain ⟨h1, _, h3⟩ := c10_identity_ripple nlW esW "A" "B" (1/2) v0W 1 hmem hall
  exact ⟨hmem, h1, h3⟩

end FCM
